import Mathlib

/-!
Verification development for the analysis core of the oxc static-analysis
toolchain: the AST node store (`crates/oxc_semantic/src/node.rs`), the
module-graph dependency walker and its client lint rules
(`crates/oxc_linter/src/rules/import/no_excessive_deps.rs`,
`crates/oxc_linter/src/rules/oxc/no_export_all.rs`,
`crates/oxc_linter/src/rules/eslint/no_restricted_imports.rs`).

Rust data is shallowly embedded: `PathBuf` becomes its list of normal
components, `HashSet` insertion order is tracked as a duplicate-free list,
maps become association lists, panics become `Option.none`, and the
recursive `walk_deps` is written with an explicit fuel parameter; a proved
theorem shows the canonical fuel bound always suffices, which is the
termination statement for the source recursion.
-/

/-- A filesystem path, modelled as its list of normal components
(`PathBuf::components`). The canonical absolute path of a module is its
graph identity. -/
abbrev FsPath := List String

/-- Rust `is_path_in_node_modules` (identical in `no_excessive_deps.rs` and
`no_export_all.rs`): does any normal component equal `node_modules`? -/
def is_path_in_node_modules (p : FsPath) : Bool :=
  p.any (fun c => c == "node_modules")

/-- A `NameSpan` as used for `ImportEntry::module_request`: the requested
specifier string together with its source span (byte offsets). -/
structure NameSpan where
  name : String
  span : Nat × Nat
deriving DecidableEq, Repr

/-- One import entry of a module record (`oxc_syntax::module_record::ImportEntry`),
restricted to the fields the verified code reads: the requested module
specifier (with its span) and the type-only flag. -/
structure ImportEntry where
  module_request : NameSpan
  is_type : Bool
deriving DecidableEq, Repr

/-- A module record (`oxc_syntax::module_record::ModuleRecord`), restricted to
the fields the verified code reads. The cyclic `loaded_modules` map
(specifier -> child `ModuleRecord`) is embedded arena-style: each edge stores
the child's canonical path, and the child record is looked up in the ambient
record list (`findRecord`). -/
structure ModuleRecord where
  resolved_absolute_path : FsPath
  import_entries : List ImportEntry
  loaded_modules : List (String × FsPath)
deriving DecidableEq, Repr

/-- Arena lookup resolving a canonical path to its record, modelling the
dereference of a `loaded_modules` map entry. A path with no record behaves
as an empty record (no entries, no edges). -/
def findRecord (g : List ModuleRecord) (p : FsPath) : ModuleRecord :=
  (g.find? (fun r => r.resolved_absolute_path == p)).getD ⟨p, [], []⟩

/-- Traversal state (the `State` struct shared by `no_excessive_deps.rs` and
`no_export_all.rs`): the `traversed` HashSet is kept as a duplicate-free list
in insertion order, `stack` mirrors the diagnostic stack of
(specifier, resolved path) pairs. -/
structure WalkerState where
  traversed : List FsPath
  stack : List (String × FsPath)
deriving DecidableEq, Repr

/-- The type-only edge filter applied inside `walk_deps`: with `ignore_types`
set, an edge is skipped when every import entry whose specifier equals the
edge key has `is_type` (vacuously true when no entry matches). -/
def typeOnlyEdge (ignore_types : Bool) (r : ModuleRecord) (spec : String) : Bool :=
  ignore_types &&
    (r.import_entries.filter (fun e => e.module_request.name == spec)).all
      (fun e => e.is_type)

/-- The edge loop of `walk_deps`, parameterised by the recursive call `recur`
used for the nested `self.walk_deps(state, module_record_ref.value())`.
For each edge: apply the type-only filter, skip already-traversed paths,
otherwise insert the child path, push the stack, recurse, pop the stack. -/
def walkEdges (ignore_types : Bool) (recur : FsPath → WalkerState → Option WalkerState)
    (r : ModuleRecord) : List (String × FsPath) → WalkerState → Option WalkerState
  | [], s => some s
  | (spec, cp) :: rest, s =>
    if typeOnlyEdge ignore_types r spec then
      walkEdges ignore_types recur r rest s
    else if cp ∈ s.traversed then
      walkEdges ignore_types recur r rest s
    else
      match recur cp ⟨cp :: s.traversed, (spec, cp) :: s.stack⟩ with
      | none => none
      | some s2 => walkEdges ignore_types recur r rest ⟨s2.traversed, s2.stack.tail⟩

/-- Fueled embedding of `walk_deps` (textually identical in
`NoExcessiveDeps::walk_deps` and `NoExportAll::walk_deps`): stop at a
vendored (`node_modules`) path, otherwise fold `walkEdges` over the record's
`loaded_modules`. `none` means the fuel ran out; a theorem below shows the
canonical bound `walkFuel` never does. -/
def walkDepsF (g : List ModuleRecord) (ignore_types : Bool) :
    Nat → FsPath → WalkerState → Option WalkerState
  | 0, _, _ => none
  | f + 1, p, s =>
    if is_path_in_node_modules p then some s
    else
      walkEdges ignore_types (walkDepsF g ignore_types f) (findRecord g p)
        (findRecord g p).loaded_modules s

/-- All edge targets occurring in the graph, deduplicated: the only paths the
walk can ever insert into `traversed`. -/
def targetsList (g : List ModuleRecord) : List FsPath :=
  (g.flatMap (fun r => r.loaded_modules.map Prod.snd)).dedup

/-- Fuel that provably suffices for `walkDepsF` on graph `g`. -/
def walkFuel (g : List ModuleRecord) : Nat :=
  (targetsList g).length + 1

/-- The dependency walk from a start path with the canonical fuel. -/
def walk_deps (g : List ModuleRecord) (ignore_types : Bool) (p : FsPath)
    (s : WalkerState) : Option WalkerState :=
  walkDepsF g ignore_types (walkFuel g) p s

/-- The walk from an empty state, as performed by `run_once`: returns the
final traversal state (total because the fuel bound suffices). -/
def computeReachable (g : List ModuleRecord) (ignore_types : Bool) (p : FsPath) :
    WalkerState :=
  (walk_deps g ignore_types p ⟨[], []⟩).getD ⟨[], []⟩

example : computeReachable [⟨["entry.js"], [], [("./a", ["a.js"])]⟩,
    ⟨["a.js"], [], [("./entry", ["entry.js"])]⟩] false ["entry.js"]
    = ⟨[["entry.js"], ["a.js"]], []⟩ := by decide

/-! ### AST node store (`crates/oxc_semantic/src/node.rs`) -/

/-- The AST node vocabulary (`oxc_ast::AstKind`), abstracted to the only
distinction the verified code makes: `set_root` matches on `Program` and
treats every other kind as a programming error. Other kinds carry a tag. -/
inductive AstKind where
  | Program : AstKind
  | otherKind : Nat → AstKind
deriving DecidableEq, Repr

/-- A semantic AST node (`AstNode`): id, kind, owning scope, control-flow
graph index, and flag bitset (the bitset is abstracted to a natural). -/
structure AstNode where
  id : Nat
  kind : AstKind
  scope_id : Nat
  cfg_ix : Nat
  flags : Nat
deriving DecidableEq, Repr

/-- Constructor `AstNode::new`: the id starts at 0 and is overwritten by
`add_node`. -/
def AstNode.new (kind : AstKind) (scope_id : Nat) (cfg_ix : Nat) (flags : Nat) :
    AstNode :=
  ⟨0, kind, scope_id, cfg_ix, flags⟩

/-- The node store (`AstNodes`): root id, node sequence and the parallel
parent-id sequence (`IndexVec` becomes a list indexed by position). -/
structure AstNodes where
  root : Nat
  nodes : List AstNode
  parent_ids : List (Option Nat)
deriving DecidableEq, Repr

/-- The `Default` impl for `AstNodes`: root id 0, empty sequences. -/
def AstNodes.defaultStore : AstNodes :=
  ⟨0, [], []⟩

/-- Rust `AstNodes::set_root`: sets the root to the given node's id when its
kind is `Program`; any other kind hits `unreachable!` (modelled as `none`).
The source performs no call-count check. -/
def AstNodes.set_root (t : AstNodes) (root : AstNode) : Option AstNodes :=
  match root.kind with
  | AstKind.Program => some { t with root := root.id }
  | AstKind.otherKind _ => none

/-- Rust `AstNodes::add_node`: pushes the parent id (the returned id is the
index assigned by that push, i.e. the previous length), overwrites the node's
id with it, pushes the node, and returns the id. -/
def AstNodes.add_node (t : AstNodes) (node : AstNode) (parent_id : Option Nat) :
    AstNodes × Nat :=
  let ast_node_id := t.parent_ids.length
  ({ t with
      parent_ids := t.parent_ids ++ [parent_id],
      nodes := t.nodes ++ [{ node with id := ast_node_id }] },
    ast_node_id)

/-- A sequence of `add_node` calls, collecting the returned ids in call
order. -/
def AstNodes.add_all (t : AstNodes) :
    List (AstNode × Option Nat) → AstNodes × List Nat
  | [] => (t, [])
  | (n, pid) :: rest =>
    match AstNodes.add_node t n pid with
    | (t1, id) =>
      match AstNodes.add_all t1 rest with
      | (t2, ids) => (t2, id :: ids)

/-- Fueled embedding of `AstNodes::ancestors`
(`std::iter::successors(Some(id), |id| parent_ids[*id])`): the produced
sequence starts at the id itself and follows parent links; recursion is
bounded by fuel, and (fuel permitting) stops at a node whose parent entry is
`none`. An out-of-range index, a panic in the source, also stops. -/
def ancestorsF (pids : List (Option Nat)) : Nat → Nat → List Nat
  | 0, _ => []
  | f + 1, i =>
    i ::
      (match pids[i]? with
      | some (some p) => ancestorsF pids f p
      | _ => [])

/-- The ancestor walk with its canonical fuel `i + 1`, which suffices whenever
parent ids decrease (parents are inserted before children). -/
def AstNodes.ancestors (t : AstNodes) (i : Nat) : List Nat :=
  ancestorsF t.parent_ids (i + 1) i

/-- Decidable form of the store invariant that every parent link points to an
earlier id (insertion order is construction order). -/
def parentsDecrease (pids : List (Option Nat)) : Bool :=
  (List.range pids.length).all (fun i =>
    match pids[i]? with
    | some (some p) => decide (p < i)
    | _ => true)

/-- Decidable form of the invariant that `root` is the unique parentless
entry of the store. -/
def uniqueRoot (pids : List (Option Nat)) (root : Nat) : Bool :=
  (List.range pids.length).all (fun i =>
    match pids[i]? with
    | some none => decide (i = root)
    | _ => true)

example : AstNodes.ancestors ⟨0, [], [none, some 0, some 1]⟩ 2 = [2, 1, 0] := by decide
example : parentsDecrease [none, some 0, some 1] = true := by decide

/-! ### Configuration values (`serde_json::Value`) and rule configuration -/

/-- A semi-structured configuration value (`serde_json::Value`). Numbers are
embedded as integers; the claims under verification only exercise the
`as_u64` accessor. -/
inductive Json where
  | null : Json
  | bool : Bool → Json
  | num : Int → Json
  | str : String → Json
  | arr : List Json → Json
  | obj : List (String × Json) → Json

/-- Object field access `Value::get(&str)`: `some` field value on an object
containing the key, otherwise `none`. -/
def Json.get : Json → String → Option Json
  | Json.obj kvs, k => (kvs.find? (fun kv => kv.1 == k)).map Prod.snd
  | _, _ => none

/-- Array element access `Value::get(usize)`. -/
def Json.getIdx : Json → Nat → Option Json
  | Json.arr xs, i => xs[i]?
  | _, _ => none

/-- The panicking-free index operator `value[key]` on `serde_json::Value`,
which yields `Null` for a missing key or a non-object. -/
def Json.index (v : Json) (k : String) : Json :=
  (v.get k).getD Json.null

/-- Accessor `Value::as_str`. -/
def Json.as_str : Json → Option String
  | Json.str s => some s
  | _ => none

/-- Accessor `Value::as_bool`. -/
def Json.as_bool : Json → Option Bool
  | Json.bool b => some b
  | _ => none

/-- Accessor chain `Value::as_number` followed by `Number::as_u64`: succeeds
exactly on integers in the `u64` range. -/
def Json.as_u64 : Json → Option Nat
  | Json.num n => if 0 ≤ n ∧ n < 2 ^ 64 then some n.toNat else none
  | _ => none

/-- Accessor `Value::as_array`. -/
def Json.as_array : Json → Option (List Json)
  | Json.arr xs => some xs
  | _ => none

/-! ### Rule `eslint/no-restricted-imports`
(`crates/oxc_linter/src/rules/eslint/no_restricted_imports.rs`) -/

/-- One configured restricted path: the specifier to forbid and the message
to report. -/
structure PathConfig where
  path : String
  message : String
deriving DecidableEq, Repr

/-- Rule state for `NoRestrictedImports`. -/
structure NoRestrictedImports where
  paths : List PathConfig
deriving DecidableEq, Repr

/-- The diagnostic `NoRestrictedImportsDiagnostic(String, Span)`: the
configured message and the span of the import's module request. -/
structure NoRestrictedImportsDiagnostic where
  message : String
  span : Nat × Nat
deriving DecidableEq, Repr

/-- Rust `NoRestrictedImports::from_configuration`: reads `value["paths"]`
defaulting to the empty array, then for each entry takes
`p["path"].as_str().unwrap()` — a panic (modelled as `none`) when the entry
has no string `path` — and `p["message"].as_str().unwrap_or("")`. -/
def NoRestrictedImports.from_configuration (value : Json) :
    Option NoRestrictedImports :=
  let entries := ((value.get "paths").bind Json.as_array).getD []
  let cfgs : Option (List PathConfig) :=
    entries.mapM (fun (p : Json) =>
      ((p.index "path").as_str).map (fun path =>
        PathConfig.mk path (((p.index "message").as_str).getD "")))
  cfgs.map NoRestrictedImports.mk

/-- Rust `NoRestrictedImports::run_once`: for every import entry whose
requested specifier equals the `path` of some configured entry (first match
wins), emit one diagnostic with that entry's message at the module request's
span. -/
def NoRestrictedImports.run_once (self : NoRestrictedImports)
    (module_record : ModuleRecord) : List NoRestrictedImportsDiagnostic :=
  module_record.import_entries.filterMap (fun import_entry =>
    (self.paths.find? (fun p => p.path == import_entry.module_request.name)).map
      (fun fail => ⟨fail.message, import_entry.module_request.span⟩))

/-! ### Rule `import/no-excessive-deps`
(`crates/oxc_linter/src/rules/import/no_excessive_deps.rs`) -/

/-- Rule state for `NoExcessiveDeps`: the dependency threshold (a `u32`), the
type-only filter switch, and whether the dependency list is printed. -/
structure NoExcessiveDeps where
  max_deps : Nat
  ignore_types : Bool
  should_print_deps : Bool
deriving DecidableEq, Repr

/-- Rust `NoExcessiveDeps::from_configuration`: reads the first element of
the configuration array; `maxDeps` defaults to `u32::MAX` and is truncated
by an `as u32` cast, `ignoreTypes` defaults to `false`, `shouldPrintDeps`
defaults to `true`. Every accessor recovers from malformed data. -/
def NoExcessiveDeps.from_configuration (value : Json) : NoExcessiveDeps :=
  let obj := value.getIdx 0
  { max_deps :=
      (((obj.bind (fun v => v.get "maxDeps")).bind Json.as_u64).map
        (fun n => n % 2 ^ 32)).getD (2 ^ 32 - 1),
    ignore_types :=
      ((obj.bind (fun v => v.get "ignoreTypes")).bind Json.as_bool).getD false,
    should_print_deps :=
      ((obj.bind (fun v => v.get "shouldPrintDeps")).bind Json.as_bool).getD true }

/-- The diagnostic `NoExcessiveDepsDiagnostic(String, String, String, String)`.
The source stringifies its payload (and, for presentation, strips the working
directory and sorts the printed list); the embedding keeps the underlying
data: entry file path, the internal dependency count, the configured limit,
and the traversed list when printing is enabled. -/
structure NoExcessiveDepsDiagnostic where
  file_path : FsPath
  num_deps : Nat
  max_deps : Nat
  printed_deps : List FsPath
deriving DecidableEq, Repr

/-- The internal-dependency filter of `NoExcessiveDeps::run_once`: paths in
`traversed` other than the entry file itself and vendored (`node_modules`)
paths. -/
def internalDepsList (ignore_types : Bool) (g : List ModuleRecord)
    (file_path : FsPath) : List FsPath :=
  (computeReachable g ignore_types file_path).traversed.filter
    (fun p => !(p == file_path) && !is_path_in_node_modules p)

/-- The count `num_internal_deps` used for the threshold check. -/
def internalDeps (ignore_types : Bool) (g : List ModuleRecord)
    (file_path : FsPath) : Nat :=
  (internalDepsList ignore_types g file_path).length

/-- Rust `NoExcessiveDeps::run_once`: walk the dependencies of the entry
file's module record, count the traversed paths excluding the entry file and
vendored paths, and emit one diagnostic exactly when the count exceeds
`max_deps`. -/
def NoExcessiveDeps.run_once (self : NoExcessiveDeps) (g : List ModuleRecord)
    (file_path : FsPath) : List NoExcessiveDepsDiagnostic :=
  let num_internal_deps := internalDeps self.ignore_types g file_path
  if num_internal_deps > self.max_deps then
    [⟨file_path, num_internal_deps, self.max_deps,
      if self.should_print_deps then
        (computeReachable g self.ignore_types file_path).traversed
      else []⟩]
  else []

/-! ### Walker invariants: monotonicity and freedom from duplicates -/

/-- Over one edge-loop run, the traversed list only grows (new paths are
consed in front), provided the recursive call has the same property. -/
theorem walkEdges_mono {ig : Bool} {recur : FsPath → WalkerState → Option WalkerState}
    {r : ModuleRecord}
    (hrec : ∀ p s s', recur p s = some s' → s.traversed <:+ s'.traversed) :
    ∀ edges s s', walkEdges ig recur r edges s = some s' →
      s.traversed <:+ s'.traversed := by
  intro edges
  induction edges with
  | nil =>
    intro s s' h
    simp only [walkEdges, Option.some.injEq] at h
    exact h ▸ List.suffix_rfl
  | cons e rest ih =>
    intro s s' h
    obtain ⟨spec, cp⟩ := e
    simp only [walkEdges] at h
    split at h
    · exact ih s s' h
    · split at h
      · exact ih s s' h
      · cases hr : recur cp ⟨cp :: s.traversed, (spec, cp) :: s.stack⟩ with
        | none => rw [hr] at h; cases h
        | some s2 =>
          rw [hr] at h
          have h1 : (cp :: s.traversed) <:+ s2.traversed := hrec _ _ _ hr
          have h2 := ih _ _ h
          exact ((List.suffix_cons cp s.traversed).trans h1).trans h2

/-- The fueled walk only grows the traversed list. -/
theorem walkDepsF_mono {g : List ModuleRecord} {ig : Bool} :
    ∀ f p s s', walkDepsF g ig f p s = some s' → s.traversed <:+ s'.traversed := by
  intro f
  induction f with
  | zero => intro p s s' h; cases h
  | succ f ih =>
    intro p s s' h
    simp only [walkDepsF] at h
    split at h
    · cases h; exact List.suffix_rfl
    · exact walkEdges_mono ih _ s s' h

/-- Over one edge-loop run, a duplicate-free traversed list stays
duplicate-free: a path is only inserted after the membership test fails. -/
theorem walkEdges_nodup {ig : Bool} {recur : FsPath → WalkerState → Option WalkerState}
    {r : ModuleRecord}
    (hrec : ∀ p s s', recur p s = some s' → s.traversed.Nodup → s'.traversed.Nodup) :
    ∀ edges s s', walkEdges ig recur r edges s = some s' →
      s.traversed.Nodup → s'.traversed.Nodup := by
  intro edges
  induction edges with
  | nil =>
    intro s s' h hnd
    simp only [walkEdges, Option.some.injEq] at h
    exact h ▸ hnd
  | cons e rest ih =>
    intro s s' h hnd
    obtain ⟨spec, cp⟩ := e
    simp only [walkEdges] at h
    split at h
    · exact ih s s' h hnd
    · split at h
      · exact ih s s' h hnd
      · rename_i hmem
        cases hr : recur cp ⟨cp :: s.traversed, (spec, cp) :: s.stack⟩ with
        | none => rw [hr] at h; cases h
        | some s2 =>
          rw [hr] at h
          have h1 : s2.traversed.Nodup :=
            hrec _ _ _ hr (List.nodup_cons.mpr ⟨hmem, hnd⟩)
          exact ih _ _ h h1

/-- The fueled walk preserves freedom from duplicates in the traversed
list: each canonical path is inserted at most once. -/
theorem walkDepsF_nodup {g : List ModuleRecord} {ig : Bool} :
    ∀ f p s s', walkDepsF g ig f p s = some s' →
      s.traversed.Nodup → s'.traversed.Nodup := by
  intro f
  induction f with
  | zero => intro p s s' h; cases h
  | succ f ih =>
    intro p s s' h hnd
    simp only [walkDepsF] at h
    split at h
    · cases h; exact hnd
    · exact walkEdges_nodup ih _ s s' h hnd

/-! ### Walker coverage, reachability, soundness and closure -/

/-- After an edge-loop run completes, the target of every non-filtered edge
in the processed list is in the final traversed list. -/
theorem walkEdges_covers {ig : Bool} {recur : FsPath → WalkerState → Option WalkerState}
    {r : ModuleRecord}
    (hrec : ∀ p s s', recur p s = some s' → s.traversed <:+ s'.traversed) :
    ∀ edges s s', walkEdges ig recur r edges s = some s' →
      ∀ spec cp, (spec, cp) ∈ edges → typeOnlyEdge ig r spec = false →
        cp ∈ s'.traversed := by
  intro edges
  induction edges with
  | nil => intro s s' _ spec cp hmem; cases hmem
  | cons e rest ih =>
    intro s s' h spec cp hmem hfil
    obtain ⟨spec0, cp0⟩ := e
    simp only [walkEdges] at h
    rcases List.mem_cons.mp hmem with hhead | htail
    · obtain ⟨h1, h2⟩ := Prod.mk.injEq .. ▸ hhead
      subst h1; subst h2
      split at h
      · rename_i hcond; rw [hfil] at hcond; cases hcond
      · split at h
        · rename_i hmem2
          exact (walkEdges_mono hrec rest s s' h).subset hmem2
        · cases hr : recur cp ⟨cp :: s.traversed, (spec, cp) :: s.stack⟩ with
          | none => rw [hr] at h; cases h
          | some s2 =>
            rw [hr] at h
            have h1 : cp ∈ s2.traversed :=
              (hrec _ _ _ hr).subset (List.mem_cons_self cp s.traversed)
            exact (walkEdges_mono hrec rest _ s' h).subset h1
    · split at h
      · exact ih s s' h spec cp htail hfil
      · split at h
        · exact ih s s' h spec cp htail hfil
        · cases hr : recur cp0 ⟨cp0 :: s.traversed, (spec0, cp0) :: s.stack⟩ with
          | none => rw [hr] at h; cases h
          | some s2 =>
            rw [hr] at h
            exact ih _ s' h spec cp htail hfil

/-- After the fueled walk completes at a non-vendored path, the target of
every non-filtered edge of that path's record is in the final traversed
list. -/
theorem walkDepsF_covers {g : List ModuleRecord} {ig : Bool} :
    ∀ f p s s', walkDepsF g ig f p s = some s' →
      is_path_in_node_modules p = false →
      ∀ spec cp, (spec, cp) ∈ (findRecord g p).loaded_modules →
        typeOnlyEdge ig (findRecord g p) spec = false →
        cp ∈ s'.traversed := by
  intro f
  cases f with
  | zero => intro p s s' h; cases h
  | succ f =>
    intro p s s' h hv spec cp hmem hfil
    simp only [walkDepsF] at h
    rw [hv] at h
    simp only [Bool.false_eq_true, if_false] at h
    exact walkEdges_covers (walkDepsF_mono f) _ s s' h spec cp hmem hfil

/-- Reachability through the dependency walk's non-filtered edges, mirroring
the walk's two exclusion points: an edge contributes only if its source
record was explored (the start, or a reachable module, in either case not
vendored) and the edge survives the type-only filter. Targets themselves may
be vendored; their own edges then contribute nothing. -/
inductive Reach (g : List ModuleRecord) (ig : Bool) (p₀ : FsPath) : FsPath → Prop
  | base (spec : String) (cp : FsPath) :
      is_path_in_node_modules p₀ = false →
      (spec, cp) ∈ (findRecord g p₀).loaded_modules →
      typeOnlyEdge ig (findRecord g p₀) spec = false →
      Reach g ig p₀ cp
  | step (q : FsPath) (spec : String) (cp : FsPath) :
      Reach g ig p₀ q →
      is_path_in_node_modules q = false →
      (spec, cp) ∈ (findRecord g q).loaded_modules →
      typeOnlyEdge ig (findRecord g q) spec = false →
      Reach g ig p₀ cp

/-- Soundness of the edge loop: every path in the final traversed list was
either there before or is reachable, provided the loop runs over edges of an
explored record and the recursive call is likewise sound. -/
theorem walkEdges_sound {g : List ModuleRecord} {ig : Bool} {p₀ : FsPath}
    {recur : FsPath → WalkerState → Option WalkerState} {p : FsPath}
    (hrec : ∀ q s s', recur q s = some s' →
      (q = p₀ ∨ Reach g ig p₀ q) →
      (∀ x ∈ s.traversed, Reach g ig p₀ x) →
      ∀ x ∈ s'.traversed, Reach g ig p₀ x)
    (hp : p = p₀ ∨ Reach g ig p₀ p)
    (hv : is_path_in_node_modules p = false) :
    ∀ edges s s', walkEdges ig recur (findRecord g p) edges s = some s' →
      (∀ e ∈ edges, e ∈ (findRecord g p).loaded_modules) →
      (∀ x ∈ s.traversed, Reach g ig p₀ x) →
      ∀ x ∈ s'.traversed, Reach g ig p₀ x := by
  intro edges
  induction edges with
  | nil =>
    intro s s' h _ hall
    simp only [walkEdges, Option.some.injEq] at h
    exact h ▸ hall
  | cons e rest ih =>
    intro s s' h hsub hall
    obtain ⟨spec, cp⟩ := e
    simp only [walkEdges] at h
    split at h
    · exact ih s s' h (fun e he => hsub e (List.mem_cons_of_mem _ he)) hall
    · rename_i hfil
      split at h
      · exact ih s s' h (fun e he => hsub e (List.mem_cons_of_mem _ he)) hall
      · cases hr : recur cp ⟨cp :: s.traversed, (spec, cp) :: s.stack⟩ with
        | none => rw [hr] at h; cases h
        | some s2 =>
          rw [hr] at h
          have hfil' : typeOnlyEdge ig (findRecord g p) spec = false :=
            Bool.eq_false_iff.mpr hfil
          have hedge : (spec, cp) ∈ (findRecord g p).loaded_modules :=
            hsub (spec, cp) (List.mem_cons_self _ _)
          have hcp : Reach g ig p₀ cp := by
            rcases hp with rfl | hreach
            · exact Reach.base spec cp hv hedge hfil'
            · exact Reach.step p spec cp hreach hv hedge hfil'
          have hall1 : ∀ x ∈ (cp :: s.traversed), Reach g ig p₀ x := by
            intro x hx
            rcases List.mem_cons.mp hx with rfl | hx'
            · exact hcp
            · exact hall x hx'
          have hall2 := hrec _ _ _ hr (Or.inr hcp) hall1
          exact ih _ s' h (fun e he => hsub e (List.mem_cons_of_mem _ he)) hall2

/-- Soundness of the fueled walk: every path in the final traversed list was
there before or is reachable from the start through non-filtered edges. -/
theorem walkDepsF_sound {g : List ModuleRecord} {ig : Bool} {p₀ : FsPath} :
    ∀ f p s s', walkDepsF g ig f p s = some s' →
      (p = p₀ ∨ Reach g ig p₀ p) →
      (∀ x ∈ s.traversed, Reach g ig p₀ x) →
      ∀ x ∈ s'.traversed, Reach g ig p₀ x := by
  intro f
  induction f with
  | zero => intro p s s' h; cases h
  | succ f ih =>
    intro p s s' h hp hall
    simp only [walkDepsF] at h
    split at h
    · cases h; exact hall
    · rename_i hnv
      have hv : is_path_in_node_modules p = false := Bool.eq_false_iff.mpr hnv
      exact walkEdges_sound ih hp hv _ s s' h (fun e he => he) hall

/-- Closure of the edge loop: every path newly added during the loop has, in
the final traversed list, the target of each of its own non-filtered edges
(assuming the path is not vendored, in which case its edges are explored by
the nested call). -/
theorem walkEdges_closure {g : List ModuleRecord} {ig : Bool}
    {recur : FsPath → WalkerState → Option WalkerState} {r : ModuleRecord}
    (hrecC : ∀ p s s', recur p s = some s' →
      ∀ q, q ∈ s'.traversed → q ∉ s.traversed →
        is_path_in_node_modules q = false →
        ∀ spec cp, (spec, cp) ∈ (findRecord g q).loaded_modules →
          typeOnlyEdge ig (findRecord g q) spec = false → cp ∈ s'.traversed)
    (hrecM : ∀ p s s', recur p s = some s' → s.traversed <:+ s'.traversed)
    (hrecCov : ∀ p s s', recur p s = some s' →
      is_path_in_node_modules p = false →
      ∀ spec cp, (spec, cp) ∈ (findRecord g p).loaded_modules →
        typeOnlyEdge ig (findRecord g p) spec = false → cp ∈ s'.traversed) :
    ∀ edges s s', walkEdges ig recur r edges s = some s' →
      ∀ q, q ∈ s'.traversed → q ∉ s.traversed →
        is_path_in_node_modules q = false →
        ∀ spec cp, (spec, cp) ∈ (findRecord g q).loaded_modules →
          typeOnlyEdge ig (findRecord g q) spec = false → cp ∈ s'.traversed := by
  intro edges
  induction edges with
  | nil =>
    intro s s' h q hq hqnew
    simp only [walkEdges, Option.some.injEq] at h
    subst h
    exact absurd hq hqnew
  | cons e rest ih =>
    intro s s' h q hq hqnew hqv spec cp hedge hfil
    obtain ⟨spec0, cp0⟩ := e
    simp only [walkEdges] at h
    split at h
    · exact ih s s' h q hq hqnew hqv spec cp hedge hfil
    · split at h
      · exact ih s s' h q hq hqnew hqv spec cp hedge hfil
      · cases hr : recur cp0 ⟨cp0 :: s.traversed, (spec0, cp0) :: s.stack⟩ with
        | none => rw [hr] at h; cases h
        | some s2 =>
          rw [hr] at h
          by_cases hq2 : q ∈ s2.traversed
          · -- q was present when the nested call returned
            by_cases hqcp : q = cp0
            · -- q is the path inserted for this edge: its edges were
              -- explored by the nested call
              subst hqcp
              have h1 : cp ∈ s2.traversed := hrecCov _ _ _ hr hqv spec cp hedge hfil
              exact (walkEdges_mono hrecM rest _ s' h).subset h1
            · -- q was added inside the nested call
              have hqnew1 : q ∉ (cp0 :: s.traversed) := by
                intro hx
                rcases List.mem_cons.mp hx with hx' | hx'
                · exact hqcp hx'
                · exact hqnew hx'
              have h1 := hrecC _ _ _ hr q hq2 hqnew1 hqv spec cp hedge hfil
              exact (walkEdges_mono hrecM rest _ s' h).subset h1
          · -- q was added while processing the remaining edges
            exact ih _ s' h q hq hq2 hqv spec cp hedge hfil

/-- Closure of the fueled walk: every path newly traversed by a completed
walk has, in the final traversed list, the target of each of its own
non-filtered edges (when it is not vendored). -/
theorem walkDepsF_closure {g : List ModuleRecord} {ig : Bool} :
    ∀ f p s s', walkDepsF g ig f p s = some s' →
      ∀ q, q ∈ s'.traversed → q ∉ s.traversed →
        is_path_in_node_modules q = false →
        ∀ spec cp, (spec, cp) ∈ (findRecord g q).loaded_modules →
          typeOnlyEdge ig (findRecord g q) spec = false → cp ∈ s'.traversed := by
  intro f
  induction f with
  | zero => intro p s s' h; cases h
  | succ f ih =>
    intro p s s' h
    simp only [walkDepsF] at h
    split at h
    · cases h
      intro q hq hqnew
      exact absurd hq hqnew
    · exact walkEdges_closure ih (walkDepsF_mono f) (walkDepsF_covers f) _ s s' h

/-! ### Walker termination: the canonical fuel bound suffices -/

/-- Helper: a pointwise-weaker filter keeps at most as many elements. -/
theorem length_filter_mono {α : Type} (l : List α) (p q : α → Bool)
    (h : ∀ x ∈ l, p x = true → q x = true) :
    (l.filter p).length ≤ (l.filter q).length := by
  induction l with
  | nil => simp
  | cons a t ih =>
    have ht : ∀ x ∈ t, p x = true → q x = true :=
      fun x hx => h x (List.mem_cons_of_mem _ hx)
    by_cases hpa : p a = true
    · rw [List.filter_cons_of_pos hpa, List.filter_cons_of_pos (h a (List.mem_cons_self _ _) hpa)]
      simpa using ih ht
    · rw [List.filter_cons_of_neg (by simpa using hpa)]
      by_cases hqa : q a = true
      · rw [List.filter_cons_of_pos hqa]
        exact (ih ht).trans (Nat.le_succ _)
      · rw [List.filter_cons_of_neg (by simpa using hqa)]
        exact ih ht

/-- Helper: on a duplicate-free list, a pointwise-weaker filter that
additionally drops a kept element keeps strictly fewer elements. -/
theorem length_filter_lt {α : Type} (l : List α) (hl : l.Nodup) (a : α)
    (ha : a ∈ l) (p q : α → Bool) (h : ∀ x ∈ l, p x = true → q x = true)
    (hpa : p a = false) (hqa : q a = true) :
    (l.filter p).length < (l.filter q).length := by
  induction l with
  | nil => cases ha
  | cons b t ih =>
    have hbt : b ∉ t := (List.nodup_cons.mp hl).1
    have htn : t.Nodup := (List.nodup_cons.mp hl).2
    have ht : ∀ x ∈ t, p x = true → q x = true :=
      fun x hx => h x (List.mem_cons_of_mem _ hx)
    rcases List.mem_cons.mp ha with rfl | hat
    · rw [List.filter_cons_of_neg (by simp [hpa]), List.filter_cons_of_pos hqa]
      exact Nat.lt_succ_of_le (length_filter_mono t p q ht)
    · by_cases hpb : p b = true
      · rw [List.filter_cons_of_pos hpb, List.filter_cons_of_pos (h b (List.mem_cons_self _ _) hpb)]
        simpa using ih htn hat ht
      · rw [List.filter_cons_of_neg (by simpa using hpb)]
        by_cases hqb : q b = true
        · rw [List.filter_cons_of_pos hqb]
          exact (ih htn hat ht).trans (Nat.lt_succ_self _)
        · rw [List.filter_cons_of_neg (by simpa using hqb)]
          exact ih htn hat ht

/-- The number of graph edge targets not yet traversed: the walker's
termination measure. -/
def unvisitedCount (g : List ModuleRecord) (tr : List FsPath) : Nat :=
  ((targetsList g).filter (fun x => decide (x ∉ tr))).length

/-- Every edge of every record resolvable in the graph has its target in
`targetsList`. -/
theorem mem_targetsList {g : List ModuleRecord} {p : FsPath}
    {e : String × FsPath} (h : e ∈ (findRecord g p).loaded_modules) :
    e.2 ∈ targetsList g := by
  unfold findRecord at h
  cases hf : g.find? (fun r => r.resolved_absolute_path == p) with
  | none => rw [hf] at h; cases h
  | some r =>
    rw [hf] at h
    have hrg : r ∈ g := List.mem_of_find?_eq_some hf
    unfold targetsList
    rw [List.mem_dedup, List.mem_flatMap]
    exact ⟨r, hrg, List.mem_map.mpr ⟨e, h, rfl⟩⟩

/-- Growing the traversed list cannot increase the termination measure. -/
theorem unvisitedCount_anti {g : List ModuleRecord} {tr tr' : List FsPath}
    (h : tr <:+ tr') : unvisitedCount g tr' ≤ unvisitedCount g tr := by
  apply length_filter_mono
  intro x _ hx
  simp only [decide_eq_true_eq] at hx ⊢
  exact fun hmem => hx (h.subset hmem)

/-- Inserting a not-yet-traversed edge target strictly decreases the
termination measure. -/
theorem unvisitedCount_insert_lt {g : List ModuleRecord} {tr : List FsPath}
    {cp : FsPath} (hcp : cp ∈ targetsList g) (hnew : cp ∉ tr) :
    unvisitedCount g (cp :: tr) < unvisitedCount g tr := by
  apply length_filter_lt (targetsList g) (List.nodup_dedup _) cp hcp
  · intro x _ hx
    simp only [decide_eq_true_eq] at hx ⊢
    exact fun hmem => hx (List.mem_cons_of_mem _ hmem)
  · simp
  · simpa using hnew

/-- Termination of the edge loop: with the recursive call total below fuel
`f` and all edge targets drawn from the graph, the loop completes whenever
the measure is at most `f`. -/
theorem walkEdges_term {g : List ModuleRecord} {ig : Bool}
    {recur : FsPath → WalkerState → Option WalkerState} {r : ModuleRecord} {f : Nat}
    (hrecT : ∀ p s, unvisitedCount g s.traversed < f → ∃ s', recur p s = some s')
    (hrecM : ∀ p s s', recur p s = some s' → s.traversed <:+ s'.traversed) :
    ∀ edges s, (∀ e ∈ edges, e.2 ∈ targetsList g) →
      unvisitedCount g s.traversed ≤ f →
      ∃ s', walkEdges ig recur r edges s = some s' := by
  intro edges
  induction edges with
  | nil => intro s _ _; exact ⟨s, rfl⟩
  | cons e rest ih =>
    intro s hsub hle
    obtain ⟨spec, cp⟩ := e
    have hrest : ∀ e ∈ rest, e.2 ∈ targetsList g :=
      fun e he => hsub e (List.mem_cons_of_mem _ he)
    simp only [walkEdges]
    split
    · exact ih s hrest hle
    · split
      · exact ih s hrest hle
      · rename_i hmem
        have hcp : cp ∈ targetsList g := hsub (spec, cp) (List.mem_cons_self _ _)
        have hlt : unvisitedCount g (cp :: s.traversed) < unvisitedCount g s.traversed :=
          unvisitedCount_insert_lt hcp hmem
        obtain ⟨s2, hs2⟩ := hrecT cp ⟨cp :: s.traversed, (spec, cp) :: s.stack⟩
          (Nat.lt_of_lt_of_le hlt hle)
        rw [hs2]
        have h3 : unvisitedCount g s2.traversed ≤ unvisitedCount g (cp :: s.traversed) :=
          unvisitedCount_anti (hrecM _ _ _ hs2)
        exact ih ⟨s2.traversed, s2.stack.tail⟩ hrest
          (le_of_lt (Nat.lt_of_le_of_lt h3 (Nat.lt_of_lt_of_le hlt hle)))

/-- Termination of the fueled walk: fuel strictly above the measure always
suffices. -/
theorem walkDepsF_term {g : List ModuleRecord} {ig : Bool} :
    ∀ f p s, unvisitedCount g s.traversed < f →
      ∃ s', walkDepsF g ig f p s = some s' := by
  intro f
  induction f with
  | zero => intro p s h; cases h
  | succ f ih =>
    intro p s h
    simp only [walkDepsF]
    split
    · exact ⟨s, rfl⟩
    · exact walkEdges_term ih (walkDepsF_mono f) _ s
        (fun e he => mem_targetsList he)
        (Nat.lt_succ_iff.mp h)

/-- The canonical walk `walk_deps` always completes: its fuel strictly
exceeds the measure of the empty starting state. -/
theorem walk_deps_total (g : List ModuleRecord) (ig : Bool) (p : FsPath)
    (s : WalkerState) (h : s.traversed = []) :
    ∃ s', walk_deps g ig p s = some s' := by
  apply walkDepsF_term
  unfold walkFuel unvisitedCount
  rw [h]
  exact Nat.lt_succ_of_le (List.length_filter_le _ _)

/-! ### Top-level characterization of the dependency walk -/

/-- Every traversed path of the canonical walk is reachable. -/
theorem traversed_sound (g : List ModuleRecord) (ig : Bool) (p₀ : FsPath) :
    ∀ x ∈ (computeReachable g ig p₀).traversed, Reach g ig p₀ x := by
  intro x hx
  obtain ⟨s', hs⟩ := walk_deps_total g ig p₀ ⟨[], []⟩ rfl
  have hcr : computeReachable g ig p₀ = s' := by
    unfold computeReachable
    rw [hs]
    rfl
  rw [hcr] at hx
  exact walkDepsF_sound _ _ _ _ hs (Or.inl rfl) (by intro y hy; cases hy) x hx

/-- Every reachable path is traversed by the canonical walk. -/
theorem traversed_complete (g : List ModuleRecord) (ig : Bool) (p₀ : FsPath) :
    ∀ q, Reach g ig p₀ q → q ∈ (computeReachable g ig p₀).traversed := by
  intro q hq
  obtain ⟨s', hs⟩ := walk_deps_total g ig p₀ ⟨[], []⟩ rfl
  have hcr : computeReachable g ig p₀ = s' := by
    unfold computeReachable
    rw [hs]
    rfl
  rw [hcr]
  induction hq with
  | base spec cp hv hmem hfil =>
    exact walkDepsF_covers _ _ _ _ hs hv spec cp hmem hfil
  | step q' spec cp _ hv hmem hfil ih =>
    exact walkDepsF_closure _ _ _ _ hs q' ih (by intro hx; cases hx) hv spec cp hmem hfil

/-- The canonical walk never records a path twice. -/
theorem traversed_nodup (g : List ModuleRecord) (ig : Bool) (p₀ : FsPath) :
    (computeReachable g ig p₀).traversed.Nodup := by
  obtain ⟨s', hs⟩ := walk_deps_total g ig p₀ ⟨[], []⟩ rfl
  have hcr : computeReachable g ig p₀ = s' := by
    unfold computeReachable
    rw [hs]
    rfl
  rw [hcr]
  exact walkDepsF_nodup _ _ _ _ hs List.nodup_nil

/-! ### Claim theorems for the dependency walker -/

/-- C1: for every finite module graph, cycles included, the dependency walk
terminates (the canonical fuel bound returns a result), each canonical path
is inserted into the visited set at most once (the traversed list is
duplicate-free), and the visited set is exactly the set of canonical paths
reachable from the start through non-filtered edges. -/
theorem walk_deps_terminates_and_visits_once (g : List ModuleRecord) (ig : Bool)
    (p₀ : FsPath) :
    (walk_deps g ig p₀ ⟨[], []⟩).isSome = true
  ∧ (computeReachable g ig p₀).traversed.Nodup
  ∧ (∀ q, q ∈ (computeReachable g ig p₀).traversed ↔ Reach g ig p₀ q) := by
  refine ⟨?_, traversed_nodup g ig p₀,
    fun q => ⟨fun h => traversed_sound g ig p₀ q h,
      fun h => traversed_complete g ig p₀ q h⟩⟩
  obtain ⟨s', hs⟩ := walk_deps_total g ig p₀ ⟨[], []⟩ rfl
  rw [hs]
  rfl

/-- Concrete graph for the vendored-module counterexample: a non-vendored
entry whose single dependency is a vendored module which itself loads a
further vendored module. -/
def vendoredG : List ModuleRecord :=
  [⟨["a.js"], [], [("m", ["node_modules", "m", "index.js"])]⟩,
   ⟨["node_modules", "m", "index.js"], [],
     [("n", ["node_modules", "n", "index.js"])]⟩]

/-- C2 counterexample: a module under `node_modules` reached through an edge
IS present in the visited set returned by the dependency walk — `walk_deps`
inserts the child path into `traversed` before the vendored check, which
only guards the child's own edges. This falsifies the claim that a vendored
module is never present in the visited set. -/
theorem vendored_module_in_visited :
    is_path_in_node_modules ["node_modules", "m", "index.js"] = true
  ∧ ["node_modules", "m", "index.js"]
      ∈ (computeReachable vendoredG false ["a.js"]).traversed := by
  decide

/-- C2 (amended): for every graph and option setting, a vendored module's
own edges are never explored — the walk entered at a vendored path returns
its state unchanged, so nothing reachable only through it is visited — and a
vendored path never counts toward the internal-dependency total; but a
vendored module reached via an edge is inserted into the visited set. -/
theorem vendored_edges_not_explored (g : List ModuleRecord) (ig : Bool)
    (f : Nat) (p : FsPath) (s : WalkerState) (fp : FsPath)
    (hv : is_path_in_node_modules p = true) :
    walkDepsF g ig (f + 1) p s = some s
  ∧ p ∉ internalDepsList ig g fp := by
  constructor
  · simp [walkDepsF, hv]
  · intro hmem
    have h1 := (List.mem_filter.mp hmem).2
    rw [hv] at h1
    simp at h1

/-- Witness for the amended C2 theorem at a concrete vendored path. -/
theorem vendored_edges_not_explored_witness :
    walkDepsF vendoredG false 1 ["node_modules", "x"] ⟨[], []⟩ = some ⟨[], []⟩
  ∧ ["node_modules", "x"] ∉ internalDepsList false vendoredG ["a.js"] :=
  vendored_edges_not_explored vendoredG false 0 ["node_modules", "x"] ⟨[], []⟩
    ["a.js"] (by decide)

/-- Concrete diamond graph: `e` imports `x` type-only and `y` by value; `y`
imports `x` by value. -/
def diamondG : List ModuleRecord :=
  [⟨["e"], [⟨⟨"./x", (0, 1)⟩, true⟩, ⟨⟨"./y", (2, 3)⟩, false⟩],
     [("./x", ["x"]), ("./y", ["y"])]⟩,
   ⟨["x"], [], [("./z", ["z"])]⟩,
   ⟨["y"], [⟨⟨"./x", (4, 5)⟩, false⟩], [("./x", ["x"])]⟩,
   ⟨["z"], [], []⟩]

/-- Concrete chain graph: `e` imports `x` type-only only; `x` imports `z`. -/
def typeOnlyChainG : List ModuleRecord :=
  [⟨["e"], [⟨⟨"./x", (0, 1)⟩, true⟩], [("./x", ["x"])]⟩,
   ⟨["x"], [], [("./z", ["z"])]⟩,
   ⟨["z"], [], []⟩]

/-- C5: with `ignore_types` enabled, an edge all of whose matching import
entries are type-only is skipped by the edge loop (per-edge filtering); a
path not reachable through any non-filtered edge chain is absent from the
visited set, and a path reachable through some non-type-only edge chain (for
example via a second, value-level edge elsewhere in the graph) is present. -/
theorem type_only_edges_filtered (g : List ModuleRecord)
    (recur : FsPath → WalkerState → Option WalkerState) (r : ModuleRecord)
    (spec : String) (cp : FsPath) (rest : List (String × FsPath))
    (s : WalkerState) (p₀ X : FsPath) :
    ((r.import_entries.filter (fun e => e.module_request.name == spec)).all
        (fun e => e.is_type) = true →
      walkEdges true recur r ((spec, cp) :: rest) s = walkEdges true recur r rest s)
  ∧ (¬ Reach g true p₀ X → X ∉ (computeReachable g true p₀).traversed)
  ∧ (Reach g true p₀ X → X ∈ (computeReachable g true p₀).traversed) := by
  refine ⟨fun h => ?_, fun h hmem => h (traversed_sound g true p₀ X hmem),
    fun h => traversed_complete g true p₀ X h⟩
  simp [walkEdges, typeOnlyEdge, h]

/-- Witness for C5 on the concrete diamond graph: `x` is imported type-only
from `e` but reaches the visited set through the value-level edge from `y`. -/
theorem type_only_edges_filtered_witness :
    ["x"] ∈ (computeReachable diamondG true ["e"]).traversed :=
  (type_only_edges_filtered diamondG (fun _ s => some s)
      (findRecord diamondG ["e"]) "./x" ["x"] [] ⟨[], []⟩ ["e"] ["x"]).2.2
    (Reach.step ["y"] "./x" ["x"]
      (Reach.base "./y" ["y"] (by decide) (by decide) (by decide))
      (by decide) (by decide) (by decide))

/-- Concrete re-export-style graph: the edge `e -> x` has no matching import
entry in `e` at all. -/
def reExportG : List ModuleRecord :=
  [⟨["e"], [], [("./x", ["x"])]⟩,
   ⟨["x"], [], []⟩]

/-- C10: with `ignore_types` enabled, a loaded-modules edge whose specifier
matches no import entry of the parent record is skipped — the all-type-only
test is vacuously true on an empty matching set — so its target is absent
from the visited set unless reached through another edge; concretely, the
re-export-style graph yields an empty visited set with `ignore_types` on and
visits the child with `ignore_types` off. -/
theorem unmatched_specifier_edge_skipped (g : List ModuleRecord)
    (recur : FsPath → WalkerState → Option WalkerState) (r : ModuleRecord)
    (spec : String) (cp : FsPath) (rest : List (String × FsPath))
    (s : WalkerState) (p₀ X : FsPath) :
    ((r.import_entries.filter (fun e => e.module_request.name == spec)) = [] →
      walkEdges true recur r ((spec, cp) :: rest) s = walkEdges true recur r rest s)
  ∧ (¬ Reach g true p₀ X → X ∉ (computeReachable g true p₀).traversed)
  ∧ computeReachable reExportG true ["e"] = ⟨[], []⟩
  ∧ computeReachable reExportG false ["e"] = ⟨[["x"]], []⟩ := by
  refine ⟨fun h => ?_, fun h hmem => h (traversed_sound g true p₀ X hmem),
    by decide, by decide⟩
  simp [walkEdges, typeOnlyEdge, h]

/-- Witness for C10: the unmatched edge of the concrete re-export graph is
skipped by the edge loop. -/
theorem unmatched_specifier_edge_skipped_witness :
    walkEdges true (fun _ s => some s) (findRecord reExportG ["e"])
        [("./x", ["x"])] ⟨[], []⟩
      = walkEdges true (fun _ s => some s) (findRecord reExportG ["e"]) [] ⟨[], []⟩ :=
  (unmatched_specifier_edge_skipped reExportG (fun _ s => some s)
      (findRecord reExportG ["e"]) "./x" ["x"] [] ⟨[], []⟩ ["e"] ["x"]).1 (by decide)

/-! ### Claim theorems for the client rules -/

/-- Helper: the length of a `filterMap` equals the length of the filter by
definedness of the partial function. -/
theorem length_filterMap_eq {α β : Type} (f : α → Option β) (l : List α) :
    (l.filterMap f).length = (l.filter (fun a => (f a).isSome)).length := by
  induction l with
  | nil => rfl
  | cons a t ih =>
    cases hf : f a with
    | none => simp [List.filterMap_cons, List.filter_cons, hf, ih]
    | some b => simp [List.filterMap_cons, List.filter_cons, hf, ih]

/-- Concrete linear chain graph: entry imports `a`, `a` imports `b`, `b`
imports `c`; no vendored or type-only modules. -/
def chainG : List ModuleRecord :=
  [⟨["entry.js"], [⟨⟨"./a", (0, 1)⟩, false⟩], [("./a", ["a.js"])]⟩,
   ⟨["a.js"], [⟨⟨"./b", (0, 1)⟩, false⟩], [("./b", ["b.js"])]⟩,
   ⟨["b.js"], [⟨⟨"./c", (0, 1)⟩, false⟩], [("./c", ["c.js"])]⟩,
   ⟨["c.js"], [], []⟩]

/-- The entry path of the chain graph. -/
def chainEntry : FsPath := ["entry.js"]

/-- C6: the excessive-dependency check reports exactly when the internal
dependency count — traversed paths minus the entry file and minus vendored
paths — strictly exceeds the configured maximum; a report carries that count
and that limit, and at most one diagnostic is emitted. On the linear chain
entry, a, b, c the count is 3: a maximum of 2 yields exactly one diagnostic
with payload 3 and 2, and any maximum of at least 3 yields none. -/
theorem no_excessive_deps_threshold (self : NoExcessiveDeps)
    (g : List ModuleRecord) (fp : FsPath) (m : Nat) :
    (NoExcessiveDeps.run_once self g fp ≠ [] ↔
      self.max_deps < internalDeps self.ignore_types g fp)
  ∧ (∀ d ∈ NoExcessiveDeps.run_once self g fp,
      d.num_deps = internalDeps self.ignore_types g fp ∧ d.max_deps = self.max_deps)
  ∧ (NoExcessiveDeps.run_once self g fp).length ≤ 1
  ∧ internalDeps false chainG chainEntry = 3
  ∧ NoExcessiveDeps.run_once ⟨2, false, false⟩ chainG chainEntry
      = [⟨chainEntry, 3, 2, []⟩]
  ∧ (3 ≤ m → NoExcessiveDeps.run_once ⟨m, false, false⟩ chainG chainEntry = []) := by
  have h3 : internalDeps false chainG chainEntry = 3 := by decide
  refine ⟨?_, ?_, ?_, h3, by decide, ?_⟩
  · by_cases h : self.max_deps < internalDeps self.ignore_types g fp <;>
      simp [NoExcessiveDeps.run_once, h]
  · intro d hd
    by_cases h : self.max_deps < internalDeps self.ignore_types g fp <;>
      simp [NoExcessiveDeps.run_once, h] at hd
    subst hd
    exact ⟨rfl, rfl⟩
  · by_cases h : self.max_deps < internalDeps self.ignore_types g fp <;>
      simp [NoExcessiveDeps.run_once, h]
  · intro hm
    simp [NoExcessiveDeps.run_once, h3, Nat.not_lt.mpr hm]

/-- Witness for C6: a maximum of 5 on the concrete chain graph yields no
diagnostic. -/
theorem no_excessive_deps_threshold_witness :
    NoExcessiveDeps.run_once ⟨5, false, false⟩ chainG chainEntry = [] :=
  (no_excessive_deps_threshold ⟨5, false, false⟩ chainG chainEntry 5).2.2.2.2.2
    (by decide)

/-- The restricted-imports configuration of the end-to-end scenario. -/
def momentRule : NoRestrictedImports :=
  ⟨[⟨"moment", "Do not use 'moment'"⟩]⟩

/-- Module record for `import moment from "moment"`. -/
def momentRecord : ModuleRecord :=
  ⟨["index.js"], [⟨⟨"moment", (19, 27)⟩, false⟩],
    [("moment", ["node_modules", "moment", "index.js"])]⟩

/-- Module record for `import moment from "moment-timezone"`. -/
def momentTimezoneRecord : ModuleRecord :=
  ⟨["index.js"], [⟨⟨"moment-timezone", (19, 36)⟩, false⟩], []⟩

/-- C7: the restricted-imports check emits, for each import entry whose
requested specifier equals a configured path, exactly one diagnostic with
that path entry's message anchored at the module request's span (first
matching path entry wins), and nothing for entries matching no configured
path; concretely, importing `moment` under the `moment` rule yields exactly
one diagnostic with the configured message at the import's span, and
importing `moment-timezone` under the same rule yields nothing. -/
theorem no_restricted_imports_matches (self : NoRestrictedImports)
    (mr : ModuleRecord) :
    (∀ e ∈ mr.import_entries, ∀ cfg,
      self.paths.find? (fun p => p.path == e.module_request.name) = some cfg →
      (⟨cfg.message, e.module_request.span⟩ : NoRestrictedImportsDiagnostic)
        ∈ NoRestrictedImports.run_once self mr)
  ∧ (NoRestrictedImports.run_once self mr).length =
      (mr.import_entries.filter (fun e =>
        (self.paths.find? (fun p => p.path == e.module_request.name)).isSome)).length
  ∧ ((∀ e ∈ mr.import_entries,
      self.paths.find? (fun p => p.path == e.module_request.name) = none) →
      NoRestrictedImports.run_once self mr = [])
  ∧ NoRestrictedImports.run_once momentRule momentRecord
      = [⟨"Do not use 'moment'", (19, 27)⟩]
  ∧ NoRestrictedImports.run_once momentRule momentTimezoneRecord = [] := by
  refine ⟨?_, ?_, ?_, by decide, by decide⟩
  · intro e he cfg hcfg
    unfold NoRestrictedImports.run_once
    exact List.mem_filterMap.mpr ⟨e, he, by rw [hcfg]; rfl⟩
  · unfold NoRestrictedImports.run_once
    rw [length_filterMap_eq]
    congr 1
    apply List.filter_congr
    intro e _
    simp
  · intro hall
    unfold NoRestrictedImports.run_once
    rw [List.filterMap_eq_nil_iff]
    intro e he
    rw [hall e he]
    rfl

/-- Witness for C7: the diagnostic for the `moment` import is produced by
the general membership property. -/
theorem no_restricted_imports_matches_witness :
    (⟨"Do not use 'moment'", (19, 27)⟩ : NoRestrictedImportsDiagnostic)
      ∈ NoRestrictedImports.run_once momentRule momentRecord :=
  (no_restricted_imports_matches momentRule momentRecord).1
    ⟨⟨"moment", (19, 27)⟩, false⟩ (by decide)
    ⟨"moment", "Do not use 'moment'"⟩ (by decide)

/-- A configuration whose `paths` array contains an entry without a string
`path` key. -/
def malformedRestrictedConfig : Json :=
  Json.obj [("paths", Json.arr [Json.obj [("message", Json.str "nope")]])]

/-- C3: evaluating the embedded configuration parsers at a malformed input.
`NoRestrictedImports::from_configuration` panics (returns `none`: the
`unwrap` of `p["path"].as_str()` fails) on a `paths` entry with no string
`path` key, contradicting the spec's requirement that parsing never halts
the run; `NoExcessiveDeps::from_configuration`, by contrast, degrades to its
documented defaults (`u32::MAX`, `false`, `true`) on arbitrarily malformed
input. -/
theorem from_configuration_panics_on_malformed :
    NoRestrictedImports.from_configuration malformedRestrictedConfig = none
  ∧ NoExcessiveDeps.from_configuration (Json.str "garbage")
      = ⟨2 ^ 32 - 1, false, true⟩
  ∧ NoExcessiveDeps.from_configuration
        (Json.arr [Json.obj [("maxDeps", Json.str "three")]])
      = ⟨2 ^ 32 - 1, false, true⟩ :=
  ⟨rfl, rfl, rfl⟩

/-- A `Program`-kind node carrying id 1. -/
def programNode1 : AstNode := ⟨1, AstKind.Program, 0, 0, 0⟩

/-- A `Program`-kind node carrying id 2. -/
def programNode2 : AstNode := ⟨2, AstKind.Program, 0, 0, 0⟩

/-- C4 counterexample: `set_root` carries no call-count check — a second
call with a `Program`-kind node succeeds and silently overwrites the root
instead of faulting, falsifying the claim that calling `setRoot` more than
once is a fault. -/
theorem set_root_second_call_succeeds :
    AstNodes.set_root AstNodes.defaultStore programNode1 = some ⟨1, [], []⟩
  ∧ AstNodes.set_root ⟨1, [], []⟩ programNode2 = some ⟨2, [], []⟩ := by
  decide

/-- C4 (amended): `set_root` faults in exactly one case — a node whose kind
is not `Program` — and every call with a `Program`-kind node (first or
later) succeeds and sets the root to that node's id. -/
theorem set_root_amended (t : AstNodes) (n : AstNode) :
    (AstNodes.set_root t n = none ↔ n.kind ≠ AstKind.Program)
  ∧ (n.kind = AstKind.Program →
      AstNodes.set_root t n = some { t with root := n.id }) := by
  cases hk : n.kind <;> simp [AstNodes.set_root, hk]

/-- Witness for the amended C4 theorem: a store whose root was already set
accepts a further `Program`-rooted call. -/
theorem set_root_amended_witness :
    AstNodes.set_root ⟨7, [], []⟩ programNode1 = some ⟨1, [], []⟩ :=
  (set_root_amended ⟨7, [], []⟩ programNode1).2 rfl

/-- Helper for C8: from an arbitrary store, a run of `add_node` calls
returns consecutive ids starting at the current parent-id count. -/
theorem add_all_ids (t : AstNodes) (l : List (AstNode × Option Nat)) :
    (AstNodes.add_all t l).2
      = (List.range l.length).map (fun k => t.parent_ids.length + k) := by
  induction l generalizing t with
  | nil => rfl
  | cons np rest ih =>
    obtain ⟨n, pid⟩ := np
    have h1 := ih { t with
      parent_ids := t.parent_ids ++ [pid],
      nodes := t.nodes ++ [{ n with id := t.parent_ids.length }] }
    simp only [AstNodes.add_all, AstNodes.add_node]
    rw [h1]
    simp only [List.length_append, List.length_cons, List.length_nil,
      List.length_range, List.range_succ_eq_map, List.map_cons, List.map_map]
    congr 1
    apply List.map_congr_left
    intro k _
    simp only [Function.comp]
    omega

/-- C8: from an empty node store, any sequence of `add_node` calls returns
the ids 0, 1, 2, and so on in call order — contiguous from 0, strictly
increasing, never reused. -/
theorem add_node_ids_sequential (l : List (AstNode × Option Nat)) :
    (AstNodes.add_all AstNodes.defaultStore l).2 = List.range l.length := by
  rw [add_all_ids]
  simp [AstNodes.defaultStore]

/-- Bridge from the decidable parent invariant to its propositional form. -/
theorem parentsDecrease_spec (pids : List (Option Nat))
    (h : parentsDecrease pids = true) :
    ∀ (i p : Nat), pids[i]? = some (some p) → p < i := by
  intro i p hip
  have hi : i < pids.length := by
    by_contra hge
    rw [List.getElem?_eq_none (Nat.le_of_not_lt hge)] at hip
    cases hip
  have h2 := List.all_eq_true.mp h i (List.mem_range.mpr hi)
  rw [hip] at h2
  simpa using h2

/-- Bridge from the decidable unique-root invariant to its propositional
form. -/
theorem uniqueRoot_spec (pids : List (Option Nat)) (root : Nat)
    (h : uniqueRoot pids root = true) :
    ∀ (i : Nat), pids[i]? = some none → i = root := by
  intro i hip
  have hi : i < pids.length := by
    by_contra hge
    rw [List.getElem?_eq_none (Nat.le_of_not_lt hge)] at hip
    cases hip
  have h2 := List.all_eq_true.mp h i (List.mem_range.mpr hi)
  rw [hip] at h2
  simpa using h2

/-- When parent links decrease, the ancestor walk is fuel-independent above
the canonical bound. -/
theorem ancestorsF_fuel (pids : List (Option Nat))
    (hwf : ∀ (i p : Nat), pids[i]? = some (some p) → p < i) :
    ∀ i f f', i < f → i < f' → ancestorsF pids f i = ancestorsF pids f' i := by
  intro i
  induction i using Nat.strong_induction_on with
  | _ i ih =>
    intro f f' hf hf'
    cases f with
    | zero => omega
    | succ a =>
      cases f' with
      | zero => omega
      | succ b =>
        simp only [ancestorsF]
        congr 1
        cases hip : pids[i]? with
        | none => rfl
        | some o =>
          cases o with
          | none => rfl
          | some p =>
            have hp := hwf i p hip
            simp only [hip]
            exact ih p hp a b (by omega) (by omega)

/-- Core specification of the ancestor walk on a well-formed parent table:
for every in-range id, the walk starts at the id, follows parent links, ends
at the unique parentless id, and has at least two elements away from it. -/
theorem ancestorsF_spec (pids : List (Option Nat))
    (hwf : ∀ (i p : Nat), pids[i]? = some (some p) → p < i)
    (root : Nat) (huniq : ∀ (j : Nat), pids[j]? = some none → j = root) :
    ∀ i, i < pids.length →
      (ancestorsF pids (i + 1) i).head? = some i
    ∧ (ancestorsF pids (i + 1) i).getLast? = some root
    ∧ List.Chain' (fun a b => pids[a]? = some (some b)) (ancestorsF pids (i + 1) i)
    ∧ (i ≠ root → 2 ≤ (ancestorsF pids (i + 1) i).length) := by
  intro i
  induction i using Nat.strong_induction_on with
  | _ i ih =>
    intro hi
    obtain ⟨x, hx⟩ : ∃ x, pids[i]? = some x := ⟨pids[i], List.getElem?_eq_getElem hi⟩
    cases x with
    | none =>
      have hroot : i = root := huniq i hx
      have hList : ancestorsF pids (i + 1) i = [i] := by simp [ancestorsF, hx]
      rw [hList]
      exact ⟨rfl, by simp [hroot], by simp, fun hne => absurd hroot hne⟩
    | some p =>
      have hp : p < i := hwf i p hx
      have hpl : p < pids.length := lt_trans hp hi
      obtain ⟨ih1, ih2, ih3, _⟩ := ih p hp hpl
      have hfuel : ancestorsF pids i p = ancestorsF pids (p + 1) p :=
        ancestorsF_fuel pids hwf p i (p + 1) hp (Nat.lt_succ_self p)
      have hList : ancestorsF pids (i + 1) i = i :: ancestorsF pids (p + 1) p := by
        simp [ancestorsF, hx, hfuel]
      rw [hList]
      obtain ⟨a, rest', hcons⟩ : ∃ a rest', ancestorsF pids (p + 1) p = a :: rest' := by
        cases hc : ancestorsF pids (p + 1) p with
        | nil => rw [hc] at ih1; cases ih1
        | cons a r => exact ⟨a, r, rfl⟩
      have hap : a = p := by
        rw [hcons] at ih1
        simpa using ih1
      refine ⟨rfl, ?_, ?_, fun _ => ?_⟩
      · rw [hcons, List.getLast?_cons_cons]
        rw [hcons] at ih2
        exact ih2
      · rw [hcons]
        rw [hcons] at ih3
        exact List.chain'_cons.mpr ⟨by rw [hap]; exact hx, ih3⟩
      · rw [hcons]
        simp

/-- C9: on a store whose parent links point to earlier ids (insertion order
is construction order) and whose unique parentless entry is the root, the
ancestor walk from any stored id is a finite sequence (the canonical fuel is
exact) that starts at the id, follows parent links step by step, and ends at
the root: `ancestors root = [root]`, and from a non-root id the sequence has
length at least two. The walk is a pure function of the store, so it is
restartable and mutates nothing. -/
theorem ancestors_to_root (t : AstNodes) (root i : Nat)
    (hwf : parentsDecrease t.parent_ids = true)
    (hroot : t.parent_ids[root]? = some none)
    (huniq : uniqueRoot t.parent_ids root = true)
    (hi : i < t.parent_ids.length) :
    AstNodes.ancestors t root = [root]
  ∧ (AstNodes.ancestors t i).head? = some i
  ∧ (AstNodes.ancestors t i).getLast? = some root
  ∧ List.Chain' (fun a b => t.parent_ids[a]? = some (some b)) (AstNodes.ancestors t i)
  ∧ (i ≠ root → 2 ≤ (AstNodes.ancestors t i).length) := by
  have hwf' := parentsDecrease_spec t.parent_ids hwf
  have huniq' := uniqueRoot_spec t.parent_ids root huniq
  obtain ⟨h1, h2, h3, h4⟩ := ancestorsF_spec t.parent_ids hwf' root huniq' i hi
  refine ⟨?_, h1, h2, h3, h4⟩
  unfold AstNodes.ancestors
  simp [ancestorsF, hroot]

/-- Concrete three-node store: root 0, node 1 under 0, node 2 under 1. -/
def lineStore : AstNodes :=
  ⟨0, [], [none, some 0, some 1]⟩

/-- Witness for C9 on the concrete store: the walk from the root is just the
root, and the walk from the deepest node ends at the root with length 3. -/
theorem ancestors_to_root_witness :
    AstNodes.ancestors lineStore 0 = [0]
  ∧ (AstNodes.ancestors lineStore 2).getLast? = some 0
  ∧ 2 ≤ (AstNodes.ancestors lineStore 2).length :=
  ⟨(ancestors_to_root lineStore 0 2 (by decide) (by decide) (by decide)
      (by decide)).1,
   (ancestors_to_root lineStore 0 2 (by decide) (by decide) (by decide)
      (by decide)).2.2.1,
   (ancestors_to_root lineStore 0 2 (by decide) (by decide) (by decide)
      (by decide)).2.2.2.2 (by decide)⟩
